import Mathlib

/-!
# Chatbot state machine (package statemachine, file chatbot/statemachine/fsm.go)

A shallow embedding of the construction and query code of `fsm.go`:
`yamlToFSM`, `eventDescYamlToEventDesc`, `FSMWithStatesAndEvents.Current` and
`FSMWithStatesAndEvents.AvailableTransitions`.

The file imports the graph library `github.com/looplab/fsm` and uses the
record types `State` and `Event` with their constructors `NewState` and
`NewEvent`, declared in another file of the package. Neither is part of the
sources at hand, so those parts are modelled from the specification and are
marked as such.
-/

namespace Statemachine

/-! ## Go values -/

/-- A Go slice value: `none` is the nil slice, `some xs` is a non-nil slice
holding `xs`. A `for range` loop treats both alike, it runs over `elems`. -/
abbrev Slice (α : Type) := Option (List α)

/-- The elements a `for range` loop over the slice visits, in order. -/
def Slice.elems {α : Type} : Slice α → List α
  | none => []
  | some xs => xs

/-- Go builtin `append(s, x)`: the result is never nil. -/
def Slice.push {α : Type} (s : Slice α) (x : α) : Slice α :=
  some (s.elems ++ [x])

/-- A Go map value, kept as the list of its entries, each key at most once.
Go leaves the iteration order of a map unspecified; here it is the order of
first insertion. The general theorems below speak of lookups, of key
membership and of lists without repetition, never of that order. -/
abbrev GoMap (κ ν : Type) := List (κ × ν)

/-- Go map assignment `m[k] = v`: replaces the value of an existing key,
adds the entry otherwise. -/
def mapStore {κ ν : Type} [DecidableEq κ] : GoMap κ ν → κ → ν → GoMap κ ν
  | [], k, v => [(k, v)]
  | (k0, v0) :: rest, k, v =>
    if k0 = k then (k, v) :: rest else (k0, v0) :: mapStore rest k v

/-- Go two-valued map read `v, ok := m[k]`. -/
def mapLookup {κ ν : Type} [DecidableEq κ] : GoMap κ ν → κ → Option ν
  | [], _ => none
  | (k0, v0) :: rest, k => if k0 = k then some v0 else mapLookup rest k

/-- Go one-valued map read `m[k]`: the zero value of the element type when
the key is absent. -/
def mapIndex {κ ν : Type} [DecidableEq κ] (zero : ν) (m : GoMap κ ν) (k : κ) : ν :=
  (mapLookup m k).getD zero

/-- The keys of a map, in entry order. -/
def mapKeys {κ ν : Type} (m : GoMap κ ν) : List κ :=
  m.map Prod.fst

/-! ## Records of the package declared outside fsm.go -/

/-- Modelled from the spec: the `State` record, declared in another file of
package statemachine (spec section 3: a name used as table key and a message
payload the engine never interprets). fsm.go reads its fields `Name` and
`Message`. -/
structure State where
  Name : String
  Message : String
deriving DecidableEq

/-- Modelled from the spec: the `Event` record, declared in another file of
package statemachine (spec section 3: name, message payload, integer
orderID). fsm.go reads its fields `Name`, `Message` and `OrderID`. -/
structure Event where
  Name : String
  Message : String
  OrderID : Int
deriving DecidableEq

/-- The Go zero value of `State`. -/
def State.zero : State := ⟨"", ""⟩

/-- The Go zero value of `Event`. -/
def Event.zero : Event := ⟨"", "", 0⟩

/-- Modelled from the spec: constructor `NewState(name, message)` of another
file of the package; it builds the State record with that name and message. -/
def NewState (name message : String) : State := ⟨name, message⟩

/-- Modelled from the spec: constructor `NewEvent(name, message, orderID)` of
another file of the package; it builds the Event record with those fields. -/
def NewEvent (name message : String) (orderID : Int) : Event :=
  ⟨name, message, orderID⟩

/-! ## The graph library `github.com/looplab/fsm` -/

/-- Modelled from the spec: `fsm.EventDesc` of the graph library, one
transition rule (spec section 3: event name, ordered source states, one
destination state). fsm.go fills its fields `Name`, `Src` and `Dst`. -/
structure EventDesc where
  Name : String
  Src : List String
  Dst : String
deriving DecidableEq

/-- Modelled from the spec: `fsm.FSM` of the graph library, the current state
name and the transition table keyed by `(sourceState, eventName)` (spec
sections 3 and 4.2 step 4). -/
structure FSM where
  current : String
  transitions : GoMap (String × String) String
deriving DecidableEq

/-- Modelled from the spec: `fsm.NewFSM(initial, events, callbacks)` of the
graph library (spec section 4.2 steps 4 and 5, section 9): the machine starts
in `initial`; the table receives one entry per rule and source state, in
declaration order, a later entry for the same pair replacing the earlier one.
The call returns a single value, so it cannot report an error. fsm.go passes
an empty callback table, so no hook exists and the argument is left out. -/
def NewFSM (initial : String) (events : List EventDesc) : FSM :=
  { current := initial
    transitions :=
      events.foldl
        (fun t e => e.Src.foldl (fun t src => mapStore t (src, e.Name) e.Dst) t) [] }

/-- Modelled from the spec: `(*fsm.FSM).Current()` of the graph library, the
current state name. -/
def FSM.Current (f : FSM) : String := f.current

/-- Modelled from the spec: `(*fsm.FSM).AvailableTransitions()` of the graph
library (spec section 4.3): every event name with a table entry keyed by the
current state. -/
def FSM.AvailableTransitions (f : FSM) : List String :=
  (f.transitions.filter (fun kv => kv.1.1 = f.current)).map (fun kv => kv.1.2)

/-- The error of a rejected transition, naming the current state and the
rejected event (spec section 4.3, `IllegalTransitionError`). -/
structure IllegalTransitionError where
  state : String
  event : String
deriving DecidableEq

/-- The error value of a transition call. `illegalTransition` is the rejected
transition of spec section 4.3; `noTransition` is the `NoTransitionError` of
the graph library, returned when the mapped destination is the state the
machine is already in. -/
inductive EventError where
  | illegalTransition (err : IllegalTransitionError)
  | noTransition
deriving DecidableEq

/-- Modelled from the spec: the transition operation `Fire(eventName)` of
spec section 4.3, which fsm.go leaves to `(*fsm.FSM).Event` of the graph
library: look up `(currentState, eventName)`; when nothing is found the call
fails and nothing changes; when a destination other than the current state is
found the current state becomes that destination and the call returns no
error. One case follows the library and not the wording of the spec: when the
destination found is the current state itself, the library leaves the state
as it is and returns its `NoTransitionError` (fsm.go registers no callback,
so that error carries no inner error). Returns the machine after the call and
the error. -/
def FSM.Event (f : FSM) (event : String) : FSM × Option EventError :=
  match mapLookup f.transitions (f.current, event) with
  | some dst =>
    if dst = f.current then (f, some .noTransition)
    else ({ f with current := dst }, none)
  | none => (f, some (.illegalTransition ⟨f.current, event⟩))

/-! ## fsm.go -/

/-- The machine of fsm.go: the library machine with the state table and the
event table. -/
structure FSMWithStatesAndEvents where
  FSM : FSM
  States : GoMap String State
  Events : GoMap String Event
deriving DecidableEq

/-- One element of `EventDescYaml.Fsm`: a decoded transition rule. -/
structure FsmYaml where
  Name : String
  SrcState : List String
  DestState : String
deriving DecidableEq

/-- The decoded first section of the document. -/
structure EventDescYaml where
  Fsm : List FsmYaml
deriving DecidableEq

/-- The decoded second section of the document. -/
structure StateYaml where
  States : List State
deriving DecidableEq

/-- The decoded third section of the document. -/
structure EventYaml where
  Events : List Event
deriving DecidableEq

/-- An error made by `errors.Wrapf(err, msg)`: the message and the wrapped
cause. -/
structure WrappedError where
  msg : String
  cause : String
deriving DecidableEq

/-- Call `errors.Wrapf(err, msg)` on a non-nil `err`. -/
def Wrapf (err : String) (msg : String) : WrappedError := ⟨msg, err⟩

/-- Function `eventDescYamlToEventDesc` of fsm.go: starts from the empty
non-nil slice and appends one `fsm.EventDesc` per decoded rule. -/
def eventDescYamlToEventDesc (m : EventDescYaml) : Slice EventDesc :=
  m.Fsm.foldl
    (fun res e => res.push { Name := e.Name, Src := e.SrcState, Dst := e.DestState })
    (some [])

/-- Function `yamlToFSM` of fsm.go. The three arguments are the outcomes of
the three successive `dec.Decode` calls (rules, states, events), an error
carrying its text; a later outcome is only looked at when the earlier ones
succeeded. The result is the Go pair (machine pointer, error), `none` for
nil. Logging is left out. -/
def yamlToFSM (decFsm : Except String EventDescYaml) (decStates : Except String StateYaml)
    (decEvents : Except String EventYaml) :
    Option FSMWithStatesAndEvents × Option WrappedError :=
  match decFsm with
  | .error err => (none, some (Wrapf err "failed to decode FSM"))
  | .ok eventDescYaml =>
    match decStates with
    | .error err => (none, some (Wrapf err "failed to decode states list"))
    | .ok states =>
      match decEvents with
      | .error err => (none, some (Wrapf err "failed to decode events list"))
      | .ok events =>
        let eventDes := eventDescYamlToEventDesc eventDescYaml
        let statesMap :=
          states.States.foldl (fun m s => mapStore m s.Name (NewState s.Name s.Message)) []
        let eventsMap :=
          events.Events.foldl
            (fun m e => mapStore m e.Name (NewEvent e.Name e.Message e.OrderID)) []
        (some { FSM := NewFSM "Initial" eventDes.elems
                States := statesMap
                Events := eventsMap }, none)

/-- Method `FSMWithStatesAndEvents.Current` of fsm.go. -/
def Current (f : FSMWithStatesAndEvents) : State :=
  mapIndex State.zero f.States f.FSM.Current

/-- Method `FSMWithStatesAndEvents.AvailableTransitions` of fsm.go. -/
def AvailableTransitions (f : FSMWithStatesAndEvents) : Slice Event :=
  f.FSM.AvailableTransitions.foldl
    (fun res t => res.push (mapIndex Event.zero f.Events t)) (some [])

/-- Modelled from the spec: `Fire(eventName)` on the machine of fsm.go (spec
section 4.3). fsm.go has no such method; a caller fires through the exported
`FSM` field, which the machine holds by pointer, so the tables stay as they
are and the new current state is seen by `Current`. -/
def Fire (f : FSMWithStatesAndEvents) (event : String) :
    FSMWithStatesAndEvents × Option EventError :=
  ({ f with FSM := (f.FSM.Event event).1 }, (f.FSM.Event event).2)

/-- The machine `m` is a machine built from the decoded document, in any
current state: its three tables are those `yamlToFSM` builds. -/
def BuiltMachine (rules : EventDescYaml) (states : StateYaml) (events : EventYaml)
    (m : FSMWithStatesAndEvents) : Prop :=
  ∃ m0, (yamlToFSM (.ok rules) (.ok states) (.ok events)).1 = some m0 ∧
    m.FSM.transitions = m0.FSM.transitions ∧ m.States = m0.States ∧ m.Events = m0.Events

/-- The `(source state, rule)` pairs of a rule list in the order `NewFSM`
writes them into the transition table. -/
def rulePairs (events : List EventDesc) : List (String × EventDesc) :=
  events.flatMap (fun e => e.Src.map (fun s => (s, e)))

/-- The `fsm.EventDesc` that `eventDescYamlToEventDesc` makes of one rule. -/
def toEventDesc (e : FsmYaml) : EventDesc :=
  { Name := e.Name, Src := e.SrcState, Dst := e.DestState }

/-! ## Sample documents -/

/-- The example of spec section 8: states Initial and Hello, event Greet, one
rule from Initial to Hello. -/
def greetRules : EventDescYaml := ⟨[⟨"Greet", ["Initial"], "Hello"⟩]⟩

/-- The states of the example. -/
def greetStates : StateYaml := ⟨[⟨"Initial", "welcome"⟩, ⟨"Hello", "hello"⟩]⟩

/-- The events of the example. -/
def greetEvents : EventYaml := ⟨[⟨"Greet", "say hello", 1⟩]⟩

/-- The machine built from the example. -/
def greetMachine : FSMWithStatesAndEvents :=
  { FSM := ⟨"Initial", [(("Initial", "Greet"), "Hello")]⟩
    States := [("Initial", ⟨"Initial", "welcome"⟩), ("Hello", ⟨"Hello", "hello"⟩)]
    Events := [("Greet", ⟨"Greet", "say hello", 1⟩)] }

/-- A machine of the example after firing Greet: current state Hello. -/
def greetMachineHello : FSMWithStatesAndEvents :=
  { greetMachine with FSM := ⟨"Hello", greetMachine.FSM.transitions⟩ }

/-- A rule list whose only rule names the event Unknown, which the example
events do not declare. -/
def danglingRules : EventDescYaml := ⟨[⟨"Unknown", ["Initial"], "Hello"⟩]⟩

/-- The machine `yamlToFSM` returns for `danglingRules` with the example
states and events. -/
def danglingMachine : FSMWithStatesAndEvents :=
  { FSM := ⟨"Initial", [(("Initial", "Unknown"), "Hello")]⟩
    States := greetMachine.States
    Events := greetMachine.Events }

/-- A rule list whose only rule leads to the state Nowhere, which the example
states do not declare. -/
def danglingDestRules : EventDescYaml := ⟨[⟨"Greet", ["Initial"], "Nowhere"⟩]⟩

/-- The machine `yamlToFSM` returns for `danglingDestRules` with the example
states and events. -/
def danglingDestMachine : FSMWithStatesAndEvents :=
  { FSM := ⟨"Initial", [(("Initial", "Greet"), "Nowhere")]⟩
    States := greetMachine.States
    Events := greetMachine.Events }

/-- The example with one more rule, Help, that leads from Hello back to
Hello, as the rule for the Help event in the topology kept as a comment in
`yamlToFSM`. -/
def selfLoopRules : EventDescYaml :=
  ⟨[⟨"Greet", ["Initial"], "Hello"⟩, ⟨"Help", ["Hello"], "Hello"⟩]⟩

/-- The events of the example with the event Help. -/
def selfLoopEvents : EventYaml := ⟨[⟨"Greet", "say hello", 1⟩, ⟨"Help", "help", 2⟩]⟩

/-- The machine `yamlToFSM` returns for `selfLoopRules`, the example states
and `selfLoopEvents`. -/
def selfLoopBuilt : FSMWithStatesAndEvents :=
  { FSM := ⟨"Initial", [(("Initial", "Greet"), "Hello"), (("Hello", "Help"), "Hello")]⟩
    States := greetMachine.States
    Events := [("Greet", ⟨"Greet", "say hello", 1⟩), ("Help", ⟨"Help", "help", 2⟩)] }

/-- The machine `selfLoopBuilt` after firing Greet: current state Hello. -/
def selfLoopMachine : FSMWithStatesAndEvents :=
  { selfLoopBuilt with FSM := ⟨"Hello", selfLoopBuilt.FSM.transitions⟩ }

/-- A states section that declares the name Initial twice. -/
def duplicateStates : StateYaml := ⟨[⟨"Initial", "first"⟩, ⟨"Initial", "second"⟩]⟩

/-- An events section that declares the name Greet twice. -/
def duplicateEvents : EventYaml := ⟨[⟨"Greet", "first", 1⟩, ⟨"Greet", "second", 2⟩]⟩

/-- The machine `yamlToFSM` returns for the example rules with
`duplicateStates` and `duplicateEvents`. -/
def duplicateMachine : FSMWithStatesAndEvents :=
  { FSM := ⟨"Initial", [(("Initial", "Greet"), "Hello")]⟩
    States := [("Initial", ⟨"Initial", "second"⟩)]
    Events := [("Greet", ⟨"Greet", "second", 2⟩)] }

/-- Two rules for the pair (Initial, Greet) with different destinations. -/
def conflictFirst : FsmYaml := ⟨"Greet", ["Initial"], "Hello"⟩

/-- The later of the two conflicting rules. -/
def conflictSecond : FsmYaml := ⟨"Greet", ["Initial", "Hello"], "Bye"⟩

/-- The machine `yamlToFSM` returns for the two conflicting rules with the
example states and events. -/
def conflictMachine : FSMWithStatesAndEvents :=
  { FSM := ⟨"Initial", [(("Initial", "Greet"), "Bye"), (("Hello", "Greet"), "Bye")]⟩
    States := greetMachine.States
    Events := greetMachine.Events }

/-- A states section without the name Initial. -/
def noInitialStates : StateYaml := ⟨[⟨"Hello", "hello"⟩]⟩

/-! ## Maps -/

theorem mapLookup_mapStore_self {κ ν : Type} [DecidableEq κ] (m : GoMap κ ν) (k : κ) (v : ν) :
    mapLookup (mapStore m k v) k = some v := by
  induction m with
  | nil => simp [mapStore, mapLookup]
  | cons p rest ih =>
    obtain ⟨k0, v0⟩ := p
    by_cases h : k0 = k
    · simp [mapStore, mapLookup, h]
    · simp [mapStore, mapLookup, h, ih]

theorem mapLookup_mapStore_ne {κ ν : Type} [DecidableEq κ] (m : GoMap κ ν) (k k1 : κ) (v : ν)
    (hne : k ≠ k1) : mapLookup (mapStore m k v) k1 = mapLookup m k1 := by
  induction m with
  | nil => simp [mapStore, mapLookup, hne]
  | cons p rest ih =>
    obtain ⟨k0, v0⟩ := p
    by_cases h : k0 = k
    · subst h
      simp [mapStore, mapLookup, hne]
    · by_cases h1 : k0 = k1
      · subst h1
        simp [mapStore, mapLookup, h]
      · simp [mapStore, mapLookup, h, h1, ih]

theorem mapKeys_mapStore {κ ν : Type} [DecidableEq κ] (m : GoMap κ ν) (k : κ) (v : ν) :
    mapKeys (mapStore m k v) = if k ∈ mapKeys m then mapKeys m else mapKeys m ++ [k] := by
  induction m with
  | nil => simp [mapStore, mapKeys]
  | cons p rest ih =>
    obtain ⟨k0, v0⟩ := p
    by_cases h : k0 = k
    · subst h
      simp [mapStore, mapKeys]
    · have hk : ¬ k = k0 := fun e => h e.symm
      simp only [mapKeys] at ih
      by_cases hm : k ∈ List.map Prod.fst rest
      · simp [mapStore, mapKeys, h, hk, hm, ih]
      · simp [mapStore, mapKeys, h, hk, hm, ih]

theorem mem_mapKeys_mapStore {κ ν : Type} [DecidableEq κ] (m : GoMap κ ν) (k k1 : κ) (v : ν) :
    k1 ∈ mapKeys (mapStore m k v) ↔ k1 = k ∨ k1 ∈ mapKeys m := by
  rw [mapKeys_mapStore]
  by_cases hm : k ∈ mapKeys m
  · simp only [hm, if_true]
    constructor
    · exact fun h => Or.inr h
    · rintro (h | h)
      · exact h ▸ hm
      · exact h
  · simp only [hm, if_false, List.mem_append, List.mem_singleton]
    tauto

theorem nodup_mapKeys_mapStore {κ ν : Type} [DecidableEq κ] (m : GoMap κ ν) (k : κ) (v : ν)
    (h : (mapKeys m).Nodup) : (mapKeys (mapStore m k v)).Nodup := by
  rw [mapKeys_mapStore]
  by_cases hm : k ∈ mapKeys m
  · simpa [hm] using h
  · simp only [hm, if_false]
    rw [List.nodup_append]
    refine ⟨h, List.nodup_singleton k, ?_⟩
    intro a ha hb
    rw [List.mem_singleton] at hb
    exact hm (hb ▸ ha)

theorem mapLookup_eq_none_iff {κ ν : Type} [DecidableEq κ] (m : GoMap κ ν) (k : κ) :
    mapLookup m k = none ↔ k ∉ mapKeys m := by
  induction m with
  | nil => simp [mapLookup, mapKeys]
  | cons p rest ih =>
    obtain ⟨k0, v0⟩ := p
    simp only [mapKeys] at ih
    by_cases h : k0 = k
    · simp [mapLookup, mapKeys, h]
    · have hk : ¬ k = k0 := fun e => h e.symm
      simp [mapLookup, mapKeys, h, hk, ih]

theorem mapLookup_isSome_iff {κ ν : Type} [DecidableEq κ] (m : GoMap κ ν) (k : κ) :
    (mapLookup m k).isSome ↔ k ∈ mapKeys m := by
  rw [← not_iff_not, ← mapLookup_eq_none_iff]
  cases mapLookup m k <;> simp

/-! ## Tables filled by a loop of map assignments -/

theorem lookup_foldl_untouched {α κ ν : Type} [DecidableEq κ] (f : α → κ) (g : α → ν)
    (l : List α) (init : GoMap κ ν) (k : κ) (h : ∀ a ∈ l, f a ≠ k) :
    mapLookup (l.foldl (fun m a => mapStore m (f a) (g a)) init) k = mapLookup init k := by
  induction l generalizing init with
  | nil => rfl
  | cons a rest ih =>
    simp only [List.foldl_cons]
    rw [ih _ (fun b hb => h b (List.mem_cons_of_mem a hb))]
    exact mapLookup_mapStore_ne init (f a) k (g a) (h a (List.mem_cons_self a rest))

theorem lookup_foldl_agree {α κ ν : Type} [DecidableEq κ] (f : α → κ) (g : α → ν)
    (l : List α) (init : GoMap κ ν) (k : κ) (v : ν) (hex : ∃ a ∈ l, f a = k)
    (hval : ∀ a ∈ l, f a = k → g a = v) :
    mapLookup (l.foldl (fun m a => mapStore m (f a) (g a)) init) k = some v := by
  induction l generalizing init with
  | nil => simp at hex
  | cons a rest ih =>
    simp only [List.foldl_cons]
    by_cases hr : ∃ b ∈ rest, f b = k
    · exact ih _ hr (fun b hb => hval b (List.mem_cons_of_mem a hb))
    · have hno : ∀ b ∈ rest, f b ≠ k := fun b hb e => hr ⟨b, hb, e⟩
      rw [lookup_foldl_untouched f g rest _ k hno]
      obtain ⟨b, hb, hbk⟩ := hex
      rcases List.mem_cons.mp hb with rfl | hb
      · rw [hbk, ← hval b (List.mem_cons_self b rest) hbk]
        exact mapLookup_mapStore_self init k (g b)
      · exact absurd hbk (hno b hb)

theorem lookup_foldl_last {α κ ν : Type} [DecidableEq κ] (f : α → κ) (g : α → ν)
    (pre post : List α) (a : α) (init : GoMap κ ν) (h : ∀ b ∈ post, f b ≠ f a) :
    mapLookup ((pre ++ a :: post).foldl (fun m a => mapStore m (f a) (g a)) init) (f a)
      = some (g a) := by
  rw [List.foldl_append, List.foldl_cons, lookup_foldl_untouched f g post _ (f a) h]
  exact mapLookup_mapStore_self _ (f a) (g a)

theorem lookup_foldl_some {α κ ν : Type} [DecidableEq κ] (f : α → κ) (g : α → ν)
    (l : List α) (init : GoMap κ ν) (k : κ) (v : ν)
    (h : mapLookup (l.foldl (fun m a => mapStore m (f a) (g a)) init) k = some v) :
    mapLookup init k = some v ∨ ∃ a ∈ l, f a = k ∧ g a = v := by
  induction l generalizing init with
  | nil => exact Or.inl h
  | cons a rest ih =>
    simp only [List.foldl_cons] at h
    rcases ih _ h with h1 | ⟨b, hb, hbk, hbv⟩
    · by_cases hk : f a = k
      · rw [hk, mapLookup_mapStore_self] at h1
        exact Or.inr ⟨a, List.mem_cons_self a rest, hk, Option.some.inj h1⟩
      · rw [mapLookup_mapStore_ne init (f a) k (g a) hk] at h1
        exact Or.inl h1
    · exact Or.inr ⟨b, List.mem_cons_of_mem a hb, hbk, hbv⟩

theorem mem_mapKeys_foldl {α κ ν : Type} [DecidableEq κ] (f : α → κ) (g : α → ν)
    (l : List α) (init : GoMap κ ν) (k : κ) :
    k ∈ mapKeys (l.foldl (fun m a => mapStore m (f a) (g a)) init)
      ↔ k ∈ mapKeys init ∨ ∃ a ∈ l, f a = k := by
  induction l generalizing init with
  | nil => simp
  | cons a rest ih =>
    simp only [List.foldl_cons]
    rw [ih, mem_mapKeys_mapStore]
    constructor
    · rintro ((h | h) | ⟨b, hb, hbk⟩)
      · exact Or.inr ⟨a, List.mem_cons_self a rest, h.symm⟩
      · exact Or.inl h
      · exact Or.inr ⟨b, List.mem_cons_of_mem a hb, hbk⟩
    · rintro (h | ⟨b, hb, hbk⟩)
      · exact Or.inl (Or.inr h)
      · rcases List.mem_cons.mp hb with rfl | hb
        · exact Or.inl (Or.inl hbk.symm)
        · exact Or.inr ⟨b, hb, hbk⟩

theorem nodup_mapKeys_foldl {α κ ν : Type} [DecidableEq κ] (f : α → κ) (g : α → ν)
    (l : List α) (init : GoMap κ ν) (h : (mapKeys init).Nodup) :
    (mapKeys (l.foldl (fun m a => mapStore m (f a) (g a)) init)).Nodup := by
  induction l generalizing init with
  | nil => exact h
  | cons a rest ih =>
    simp only [List.foldl_cons]
    exact ih _ (nodup_mapKeys_mapStore init (f a) (g a) h)

/-! ## The rule list and the transition table -/

theorem foldl_push {α β : Type} (f : α → β) (l : List α) (acc : List β) :
    l.foldl (fun (res : Slice β) e => res.push (f e)) (some acc) = some (acc ++ l.map f) := by
  induction l generalizing acc with
  | nil => simp
  | cons a rest ih =>
    have hstep : Slice.push (some acc) (f a) = some (acc ++ [f a]) := rfl
    rw [List.foldl_cons, hstep, ih]
    simp

theorem eventDescYamlToEventDesc_eq (m : EventDescYaml) :
    eventDescYamlToEventDesc m = some (m.Fsm.map toEventDesc) := by
  have h := foldl_push toEventDesc m.Fsm []
  simpa [eventDescYamlToEventDesc, toEventDesc] using h

theorem transitions_foldl_eq (events : List EventDesc) (init : GoMap (String × String) String) :
    events.foldl (fun t e => e.Src.foldl (fun t src => mapStore t (src, e.Name) e.Dst) t) init
      = (rulePairs events).foldl (fun t p => mapStore t (p.1, p.2.Name) p.2.Dst) init := by
  induction events generalizing init with
  | nil => rfl
  | cons e rest ih =>
    simp only [List.foldl_cons, rulePairs, List.flatMap_cons, List.foldl_append, List.foldl_map]
    rw [ih]
    rfl

theorem NewFSM_transitions (initial : String) (events : List EventDesc) :
    (NewFSM initial events).transitions
      = (rulePairs events).foldl (fun t p => mapStore t (p.1, p.2.Name) p.2.Dst) [] :=
  transitions_foldl_eq events []

theorem mem_rulePairs (events : List EventDesc) (s : String) (e : EventDesc) :
    (s, e) ∈ rulePairs events ↔ e ∈ events ∧ s ∈ e.Src := by
  simp only [rulePairs, List.mem_flatMap, List.mem_map]
  constructor
  · rintro ⟨a, ha, b, hb, hab⟩
    cases hab
    exact ⟨ha, hb⟩
  · rintro ⟨h1, h2⟩
    exact ⟨e, h1, s, h2, rfl⟩

theorem yamlToFSM_ok (rules : EventDescYaml) (states : StateYaml) (events : EventYaml) :
    yamlToFSM (.ok rules) (.ok states) (.ok events)
      = (some { FSM := NewFSM "Initial" (rules.Fsm.map toEventDesc)
                States := states.States.foldl (fun m s => mapStore m s.Name s) []
                Events := events.Events.foldl (fun m e => mapStore m e.Name e) [] }, none) := by
  simp [yamlToFSM, eventDescYamlToEventDesc_eq, Slice.elems, NewState, NewEvent]

/-- The transition table of a built machine has an entry for `(s, e)` exactly
when some rule named `e` lists `s` among its source states. -/
theorem built_lookup_isSome_iff (rules : List FsmYaml) (initial s e : String) :
    (mapLookup (NewFSM initial (rules.map toEventDesc)).transitions (s, e)).isSome
      ↔ ∃ r ∈ rules, r.Name = e ∧ s ∈ r.SrcState := by
  rw [mapLookup_isSome_iff, NewFSM_transitions, mem_mapKeys_foldl]
  constructor
  · rintro (h | ⟨⟨s1, d⟩, hp, hk⟩)
    · simp [mapKeys] at h
    · rw [mem_rulePairs] at hp
      obtain ⟨hd, hs⟩ := hp
      obtain ⟨r, hr, rfl⟩ := List.mem_map.mp hd
      simp only [Prod.mk.injEq] at hk
      obtain ⟨rfl, rfl⟩ := hk
      exact ⟨r, hr, rfl, hs⟩
  · rintro ⟨r, hr, rfl, hs⟩
    refine Or.inr ⟨(s, toEventDesc r), ?_, rfl⟩
    rw [mem_rulePairs]
    exact ⟨List.mem_map_of_mem _ hr, hs⟩

/-- Last one wins: the entry for `(s, r.Name)` is the destination of the last
rule that declares the pair. -/
theorem built_lookup_last (pre post : List FsmYaml) (r : FsmYaml) (initial s : String)
    (hs : s ∈ r.SrcState)
    (hpost : ∀ q ∈ post, ¬ (q.Name = r.Name ∧ s ∈ q.SrcState)) :
    mapLookup (NewFSM initial ((pre ++ r :: post).map toEventDesc)).transitions (s, r.Name)
      = some r.DestState := by
  rw [NewFSM_transitions]
  have hsplit : rulePairs ((pre ++ r :: post).map toEventDesc)
      = rulePairs (pre.map toEventDesc)
        ++ ((r.SrcState.map (fun x => (x, toEventDesc r))) ++ rulePairs (post.map toEventDesc)) := by
    simp [rulePairs, toEventDesc]
  rw [hsplit, List.foldl_append, List.foldl_append]
  rw [lookup_foldl_untouched (fun p : String × EventDesc => (p.1, p.2.Name)) (fun p => p.2.Dst)]
  · apply lookup_foldl_agree (fun p : String × EventDesc => (p.1, p.2.Name)) (fun p => p.2.Dst)
    · exact ⟨(s, toEventDesc r), List.mem_map_of_mem _ hs, rfl⟩
    · intro a ha _
      obtain ⟨x, _, rfl⟩ := List.mem_map.mp ha
      rfl
  · rintro ⟨s1, d⟩ hp hk
    rw [mem_rulePairs] at hp
    obtain ⟨hd, hs1⟩ := hp
    obtain ⟨q, hq, rfl⟩ := List.mem_map.mp hd
    simp only [Prod.mk.injEq] at hk
    obtain ⟨rfl, hn⟩ := hk
    exact hpost q hq ⟨hn, hs1⟩

/-! ## Tables of a built machine -/

theorem builtMachine_tables (rules : EventDescYaml) (states : StateYaml) (events : EventYaml)
    (m : FSMWithStatesAndEvents) (hb : BuiltMachine rules states events m) :
    m.FSM.transitions = (NewFSM "Initial" (rules.Fsm.map toEventDesc)).transitions ∧
    m.States = states.States.foldl (fun m s => mapStore m s.Name s) [] ∧
    m.Events = events.Events.foldl (fun m e => mapStore m e.Name e) [] := by
  obtain ⟨m0, h0, ht, hs, he⟩ := hb
  rw [yamlToFSM_ok] at h0
  cases h0
  exact ⟨ht, hs, he⟩

theorem table_isSome_iff {α : Type} (name : α → String) (l : List α) (n : String) :
    (mapLookup (l.foldl (fun m a => mapStore m (name a) a) []) n).isSome
      ↔ ∃ a ∈ l, name a = n := by
  rw [mapLookup_isSome_iff, mem_mapKeys_foldl]
  simp [mapKeys]

theorem table_lookup_name {α : Type} (name : α → String) (l : List α) (n : String) (v : α)
    (h : mapLookup (l.foldl (fun m a => mapStore m (name a) a) []) n = some v) :
    v ∈ l ∧ name v = n := by
  rcases lookup_foldl_some name (fun a => a) l [] n v h with h1 | ⟨a, ha, hn, rfl⟩
  · simp [mapLookup] at h1
  · exact ⟨ha, hn⟩

theorem table_lookup_undeclared {α : Type} (name : α → String) (l : List α) (n : String)
    (h : ∀ a ∈ l, name a ≠ n) :
    mapLookup (l.foldl (fun m a => mapStore m (name a) a) []) n = none := by
  rw [lookup_foldl_untouched name (fun a => a) l [] n h]
  rfl

theorem table_lookup_last {α : Type} (name : α → String) (pre post : List α) (a : α)
    (h : ∀ b ∈ post, name b ≠ name a) :
    mapLookup ((pre ++ a :: post).foldl (fun m a => mapStore m (name a) a) []) (name a)
      = some a :=
  lookup_foldl_last name (fun a => a) pre post a [] h

theorem mem_FSM_AvailableTransitions (f : FSM) (t : String) :
    t ∈ f.AvailableTransitions ↔ (mapLookup f.transitions (f.current, t)).isSome := by
  rw [mapLookup_isSome_iff]
  simp only [FSM.AvailableTransitions, mapKeys, List.mem_map, List.mem_filter,
    decide_eq_true_eq]
  constructor
  · rintro ⟨⟨⟨s, e⟩, d⟩, ⟨hm, hs⟩, he⟩
    simp only at hs he
    subst hs he
    exact ⟨_, hm, rfl⟩
  · rintro ⟨⟨⟨s, e⟩, d⟩, hm, hk⟩
    simp only [Prod.mk.injEq] at hk
    obtain ⟨rfl, rfl⟩ := hk
    exact ⟨_, ⟨hm, rfl⟩, rfl⟩

theorem nodup_FSM_AvailableTransitions (f : FSM) (h : (mapKeys f.transitions).Nodup) :
    f.AvailableTransitions.Nodup := by
  have hfst : ((f.transitions.filter (fun kv => kv.1.1 = f.current)).map Prod.fst).Nodup :=
    List.Nodup.sublist (List.Sublist.map Prod.fst (List.filter_sublist f.transitions)) h
  have hmap : f.AvailableTransitions
      = ((f.transitions.filter (fun kv => kv.1.1 = f.current)).map Prod.fst).map Prod.snd := by
    simp [FSM.AvailableTransitions, List.map_map, Function.comp_def]
  rw [hmap]
  refine List.Nodup.map_on ?_ hfst
  intro x hx y hy hxy
  obtain ⟨a, ha, rfl⟩ := List.mem_map.mp hx
  obtain ⟨b, hb, rfl⟩ := List.mem_map.mp hy
  have h1 := (List.mem_filter.mp ha).2
  have h2 := (List.mem_filter.mp hb).2
  simp only [decide_eq_true_eq] at h1 h2
  exact Prod.ext (h1.trans h2.symm) hxy

theorem AvailableTransitions_eq (m : FSMWithStatesAndEvents) :
    AvailableTransitions m
      = some (m.FSM.AvailableTransitions.map (mapIndex Event.zero m.Events)) := by
  have h := foldl_push (mapIndex Event.zero m.Events) m.FSM.AvailableTransitions []
  simpa [AvailableTransitions] using h

theorem Fire_not_illegal_iff (m : FSMWithStatesAndEvents) (e : String) :
    ((Fire m e).2 = none ∨ (Fire m e).2 = some .noTransition)
      ↔ (mapLookup m.FSM.transitions (m.FSM.current, e)).isSome := by
  simp only [Fire, FSM.Event]
  cases mapLookup m.FSM.transitions (m.FSM.current, e) with
  | none => simp
  | some d => by_cases hd : d = m.FSM.current <;> simp [hd]

theorem Fire_snd_eq_none_iff (m : FSMWithStatesAndEvents) (e : String) :
    (Fire m e).2 = none
      ↔ ∃ d, mapLookup m.FSM.transitions (m.FSM.current, e) = some d ∧ d ≠ m.FSM.current := by
  simp only [Fire, FSM.Event]
  cases mapLookup m.FSM.transitions (m.FSM.current, e) with
  | none => simp
  | some d => by_cases hd : d = m.FSM.current <;> simp [hd]

theorem Fire_current (m : FSMWithStatesAndEvents) (e d : String)
    (h : mapLookup m.FSM.transitions (m.FSM.current, e) = some d) :
    (Fire m e).1.FSM.current = d ∧ (Fire m e).1.States = m.States ∧
    (Fire m e).1.Events = m.Events ∧ (Fire m e).1.FSM.transitions = m.FSM.transitions := by
  by_cases hd : d = m.FSM.current
  · simp [Fire, FSM.Event, h, hd]
  · simp [Fire, FSM.Event, h, hd]

/-! ## The transition operation -/

/-- C1, as stated, fails, in two ways. In the machine built from a document
whose rule leads to the undeclared state Nowhere, firing Greet from Initial
succeeds, the state table has no record of the destination, and `Current()`
then returns the zero State, whose name is empty and not Nowhere. In the
machine built from a document whose rule Help leads from Hello to Hello, the
table maps (Hello, Help) to Hello, yet firing Help from Hello returns an
error. -/
theorem fire_legal_counterexample :
    yamlToFSM (.ok danglingDestRules) (.ok greetStates) (.ok greetEvents)
      = (some danglingDestMachine, none) ∧
    mapLookup danglingDestMachine.FSM.transitions (danglingDestMachine.FSM.current, "Greet")
      = some "Nowhere" ∧
    (Fire danglingDestMachine "Greet").2 = none ∧
    mapLookup (Fire danglingDestMachine "Greet").1.States "Nowhere" = none ∧
    Current (Fire danglingDestMachine "Greet").1 = State.zero ∧
    State.zero.Name ≠ "Nowhere" ∧
    yamlToFSM (.ok selfLoopRules) (.ok greetStates) (.ok selfLoopEvents)
      = (some selfLoopBuilt, none) ∧
    (Fire selfLoopBuilt "Greet").1 = selfLoopMachine ∧
    mapLookup selfLoopMachine.FSM.transitions (selfLoopMachine.FSM.current, "Help")
      = some "Hello" ∧
    (Fire selfLoopMachine "Help").2 ≠ none := by
  decide

/-- C1, amended: for a machine built from a document, in any current state
`s`, and an event name `e` such that the transition table maps `(s, e)` to a
destination `d`: when `d` differs from `s`, `Fire e` returns no error; when
`d` is `s` itself, `Fire e` returns the no-transition error of the library.
In both cases the current state is `d` afterwards and the state table, the
event table and the transition table are unchanged. `Current()` is then the
map read of the state table at `d`: the state-table record of `d` when the
states section declares `d` (the record declared last, should the name
repeat), and the zero State when it does not. -/
theorem fire_legal_moves_to_destination (rules : EventDescYaml) (states : StateYaml)
    (events : EventYaml) (m : FSMWithStatesAndEvents) (e d : String)
    (hb : BuiltMachine rules states events m)
    (h : mapLookup m.FSM.transitions (m.FSM.current, e) = some d) :
    (d ≠ m.FSM.current → (Fire m e).2 = none) ∧
    (d = m.FSM.current → (Fire m e).2 = some .noTransition) ∧
    (Fire m e).1.FSM.current = d ∧
    (Fire m e).1.States = m.States ∧ (Fire m e).1.Events = m.Events ∧
    (Fire m e).1.FSM.transitions = m.FSM.transitions ∧
    Current (Fire m e).1 = mapIndex State.zero m.States d ∧
    (∀ pre st post, states.States = pre ++ st :: post → st.Name = d →
      (∀ x ∈ post, x.Name ≠ d) →
      mapLookup m.States d = some st ∧ Current (Fire m e).1 = st) ∧
    ((∀ st ∈ states.States, st.Name ≠ d) → Current (Fire m e).1 = State.zero) := by
  have hs := (builtMachine_tables rules states events m hb).2.1
  obtain ⟨hc, hst, hev, htr⟩ := Fire_current m e d h
  have hcur : Current (Fire m e).1 = mapIndex State.zero m.States d := by
    rw [Current, FSM.Current, hc, hst]
  refine ⟨?_, ?_, hc, hst, hev, htr, hcur, ?_, ?_⟩
  · intro hd
    simp [Fire, FSM.Event, h, hd]
  · intro hd
    simp [Fire, FSM.Event, h, hd]
  · intro pre st post hsplit hname hpost
    have hl : mapLookup m.States d = some st := by
      rw [hs, hsplit, ← hname]
      exact table_lookup_last State.Name pre post st (by rw [hname]; exact hpost)
    refine ⟨hl, ?_⟩
    rw [hcur, mapIndex, hl]
    rfl
  · intro hno
    rw [hcur, mapIndex, hs, table_lookup_undeclared State.Name states.States d hno]
    rfl

theorem fire_legal_moves_to_destination_witness :
    BuiltMachine greetRules greetStates greetEvents greetMachine ∧
    mapLookup greetMachine.FSM.transitions (greetMachine.FSM.current, "Greet") = some "Hello" ∧
    (Fire greetMachine "Greet").2 = none ∧
    Current (Fire greetMachine "Greet").1 = ⟨"Hello", "hello"⟩ ∧
    BuiltMachine selfLoopRules greetStates selfLoopEvents selfLoopMachine ∧
    (Fire selfLoopMachine "Help").2 = some .noTransition ∧
    Current (Fire selfLoopMachine "Help").1 = ⟨"Hello", "hello"⟩ :=
  have hb : BuiltMachine greetRules greetStates greetEvents greetMachine :=
    ⟨greetMachine, by decide, rfl, rfl, rfl⟩
  have h := fire_legal_moves_to_destination greetRules greetStates greetEvents greetMachine
    "Greet" "Hello" hb (by decide)
  have hb2 : BuiltMachine selfLoopRules greetStates selfLoopEvents selfLoopMachine :=
    ⟨selfLoopBuilt, by decide, rfl, rfl, rfl⟩
  have h2 := fire_legal_moves_to_destination selfLoopRules greetStates selfLoopEvents
    selfLoopMachine "Help" "Hello" hb2 (by decide)
  ⟨hb, by decide, h.1 (by decide),
    (h.2.2.2.2.2.2.2.1 [⟨"Initial", "welcome"⟩] ⟨"Hello", "hello"⟩ [] rfl rfl (by decide)).2,
    hb2, h2.2.1 rfl,
    (h2.2.2.2.2.2.2.2.1 [⟨"Initial", "welcome"⟩] ⟨"Hello", "hello"⟩ [] rfl rfl (by decide)).2⟩

/-- C2: for a machine built from a document, in any current state `s`, and an
event name `e` such that no rule named `e` lists `s` among its source states:
`Fire e` returns an error (naming `s` and `e`), the machine is unchanged, the
current state is still `s` and `Current()` returns the same State as before. -/
theorem fire_illegal_fails_and_keeps_state (rules : EventDescYaml) (states : StateYaml)
    (events : EventYaml) (m : FSMWithStatesAndEvents) (e : String)
    (hb : BuiltMachine rules states events m)
    (h : ∀ r ∈ rules.Fsm, r.Name = e → m.FSM.current ∉ r.SrcState) :
    (Fire m e).2 ≠ none ∧ (Fire m e).2 = some (.illegalTransition ⟨m.FSM.current, e⟩) ∧
    (Fire m e).1.FSM.current = m.FSM.current ∧
    Current (Fire m e).1 = Current m ∧ (Fire m e).1 = m := by
  have hnone : mapLookup m.FSM.transitions (m.FSM.current, e) = none := by
    rw [(builtMachine_tables rules states events m hb).1]
    have hiff := built_lookup_isSome_iff rules.Fsm "Initial" m.FSM.current e
    cases hl : mapLookup (NewFSM "Initial" (rules.Fsm.map toEventDesc)).transitions
        (m.FSM.current, e) with
    | none => rfl
    | some d =>
      rw [hl] at hiff
      obtain ⟨r, hr, hn, hs⟩ := hiff.mp rfl
      exact absurd hs (h r hr hn)
  simp [Fire, FSM.Event, hnone]

theorem fire_illegal_fails_and_keeps_state_witness :
    BuiltMachine greetRules greetStates greetEvents greetMachineHello ∧
    (Fire greetMachineHello "Greet").2 ≠ none ∧
    Current (Fire greetMachineHello "Greet").1 = Current greetMachineHello :=
  have hb : BuiltMachine greetRules greetStates greetEvents greetMachineHello :=
    ⟨greetMachine, by decide, rfl, rfl, rfl⟩
  have h := fire_illegal_fails_and_keeps_state greetRules greetStates greetEvents
    greetMachineHello "Greet" hb (by decide)
  ⟨hb, h.1, h.2.2.2.1⟩

/-! ## Available transitions -/

/-- C3, as stated, fails, in two ways. In the machine built from a document
whose rule names the undeclared event Unknown, firing Unknown from Initial
succeeds but Unknown is not the name of any record `AvailableTransitions()`
returns; the one record returned has the empty name, and firing the empty
name fails. In the machine built from a document whose rule Help leads from
Hello to Hello, with Help declared, Help is the name of a record returned in
the state Hello, yet firing Help from Hello returns an error. -/
theorem availability_names_counterexample :
    yamlToFSM (.ok danglingRules) (.ok greetStates) (.ok greetEvents)
      = (some danglingMachine, none) ∧
    (Fire danglingMachine "Unknown").2 = none ∧
    "Unknown" ∉ (AvailableTransitions danglingMachine).elems.map Event.Name ∧
    "" ∈ (AvailableTransitions danglingMachine).elems.map Event.Name ∧
    (Fire danglingMachine "").2 ≠ none ∧
    yamlToFSM (.ok selfLoopRules) (.ok greetStates) (.ok selfLoopEvents)
      = (some selfLoopBuilt, none) ∧
    (Fire selfLoopBuilt "Greet").1 = selfLoopMachine ∧
    "Help" ∈ (AvailableTransitions selfLoopMachine).elems.map Event.Name ∧
    (Fire selfLoopMachine "Help").2 ≠ none := by
  decide

/-- C3, amended: for a machine built from a document in which every rule
names an event declared in the events section, in any current state, an
event name `e` is the name of one of the records `AvailableTransitions()`
returns if and only if the transition table has an entry for (current state,
`e`), that is if and only if `Fire e` is not rejected as illegal: it returns
either no error or, for an entry that leads back to the current state, the
no-transition error of the library. When no rule that lists the current
state as a source has the current state as its destination, `e` is such a
name if and only if `Fire e` succeeds. -/
theorem availability_names_iff_fire_succeeds (rules : EventDescYaml) (states : StateYaml)
    (events : EventYaml) (m : FSMWithStatesAndEvents) (e : String)
    (hb : BuiltMachine rules states events m)
    (hdecl : ∀ r ∈ rules.Fsm, ∃ ev ∈ events.Events, ev.Name = r.Name) :
    (e ∈ (AvailableTransitions m).elems.map Event.Name
      ↔ ∃ d, mapLookup m.FSM.transitions (m.FSM.current, e) = some d) ∧
    (e ∈ (AvailableTransitions m).elems.map Event.Name
      ↔ ((Fire m e).2 = none ∨ (Fire m e).2 = some .noTransition)) ∧
    ((∀ r ∈ rules.Fsm, m.FSM.current ∈ r.SrcState → r.DestState ≠ m.FSM.current) →
      (e ∈ (AvailableTransitions m).elems.map Event.Name ↔ (Fire m e).2 = none)) := by
  obtain ⟨ht, _, he⟩ := builtMachine_tables rules states events m hb
  have hname : ∀ t ∈ m.FSM.AvailableTransitions, (mapIndex Event.zero m.Events t).Name = t := by
    intro t htm
    rw [mem_FSM_AvailableTransitions, ht, built_lookup_isSome_iff] at htm
    obtain ⟨r, hr, hn, _⟩ := htm
    have hsome : (mapLookup m.Events t).isSome := by
      rw [he, table_isSome_iff]
      obtain ⟨ev, hev, hevn⟩ := hdecl r hr
      exact ⟨ev, hev, hevn.trans hn⟩
    obtain ⟨v, hv⟩ := Option.isSome_iff_exists.mp hsome
    have hvn : v.Name = t := by
      rw [he] at hv
      exact (table_lookup_name Event.Name events.Events t v hv).2
    simp [mapIndex, hv, hvn]
  have hmem : e ∈ (AvailableTransitions m).elems.map Event.Name
      ↔ (mapLookup m.FSM.transitions (m.FSM.current, e)).isSome := by
    rw [← mem_FSM_AvailableTransitions, AvailableTransitions_eq]
    simp only [Slice.elems, List.mem_map]
    constructor
    · rintro ⟨ev, ⟨t, htm, rfl⟩, hn⟩
      rw [hname t htm] at hn
      exact hn ▸ htm
    · intro htm
      exact ⟨_, ⟨e, htm, rfl⟩, hname e htm⟩
  refine ⟨?_, ?_, ?_⟩
  · rw [hmem, Option.isSome_iff_exists]
  · rw [hmem, Fire_not_illegal_iff]
  · intro hloop
    rw [hmem, Fire_snd_eq_none_iff, Option.isSome_iff_exists]
    constructor
    · rintro ⟨d, hd⟩
      refine ⟨d, hd, ?_⟩
      intro hself
      have hl : mapLookup (NewFSM "Initial" (rules.Fsm.map toEventDesc)).transitions
          (m.FSM.current, e) = some d := by
        rw [← ht]
        exact hd
      rw [NewFSM_transitions] at hl
      rcases lookup_foldl_some (fun p : String × EventDesc => (p.1, p.2.Name))
          (fun p => p.2.Dst) _ [] _ _ hl with h0 | ⟨⟨s1, q⟩, hp, hk, hv⟩
      · simp [mapLookup] at h0
      · rw [mem_rulePairs] at hp
        obtain ⟨hq, hs1⟩ := hp
        obtain ⟨r, hr, rfl⟩ := List.mem_map.mp hq
        simp only [Prod.mk.injEq] at hk
        obtain ⟨rfl, _⟩ := hk
        exact hloop r hr hs1 (hv.trans hself)
    · rintro ⟨d, hd, _⟩
      exact ⟨d, hd⟩

theorem availability_names_iff_fire_succeeds_witness :
    BuiltMachine greetRules greetStates greetEvents greetMachine ∧
    ("Greet" ∈ (AvailableTransitions greetMachine).elems.map Event.Name
      ↔ (Fire greetMachine "Greet").2 = none) ∧
    BuiltMachine selfLoopRules greetStates selfLoopEvents selfLoopMachine ∧
    ("Help" ∈ (AvailableTransitions selfLoopMachine).elems.map Event.Name
      ↔ ((Fire selfLoopMachine "Help").2 = none
          ∨ (Fire selfLoopMachine "Help").2 = some .noTransition)) :=
  have hb : BuiltMachine greetRules greetStates greetEvents greetMachine :=
    ⟨greetMachine, by decide, rfl, rfl, rfl⟩
  have hb2 : BuiltMachine selfLoopRules greetStates selfLoopEvents selfLoopMachine :=
    ⟨selfLoopBuilt, by decide, rfl, rfl, rfl⟩
  ⟨hb, (availability_names_iff_fire_succeeds greetRules greetStates greetEvents greetMachine
    "Greet" hb (by decide)).2.2 (by decide),
    hb2, (availability_names_iff_fire_succeeds selfLoopRules greetStates selfLoopEvents
    selfLoopMachine "Help" hb2 (by decide)).2.1⟩

/-- C8, as stated, fails: in the machine built from a document whose rule
names the undeclared event Unknown, the transition table has an entry for
(Initial, Unknown), yet the record `AvailableTransitions()` returns for it is
the zero Event, whose name is empty and not Unknown. -/
theorem available_records_counterexample :
    yamlToFSM (.ok danglingRules) (.ok greetStates) (.ok greetEvents)
      = (some danglingMachine, none) ∧
    mapLookup danglingMachine.FSM.transitions (danglingMachine.FSM.current, "Unknown")
      = some "Hello" ∧
    AvailableTransitions danglingMachine = some [Event.zero] ∧
    Event.zero.Name ≠ "Unknown" := by
  decide

/-- C8, amended: for a machine built from a document, in any current state,
`AvailableTransitions()` returns a non-nil list with exactly one record per
event name that has an entry in the transition table for the current state
(`names` lists those names without repetition). The record for a name is
the map read of the event table: it is the Event declared under that name
(the last one when the name is declared more than once), and it is the zero
Event when the events section does not declare the name. -/
theorem available_records_of_built_machine (rules : EventDescYaml) (states : StateYaml)
    (events : EventYaml) (m : FSMWithStatesAndEvents)
    (hb : BuiltMachine rules states events m) :
    ∃ names : List String, names.Nodup ∧
      (∀ t, t ∈ names ↔ ∃ d, mapLookup m.FSM.transitions (m.FSM.current, t) = some d) ∧
      AvailableTransitions m = some (names.map (mapIndex Event.zero m.Events)) ∧
      (∀ pre ev post, events.Events = pre ++ ev :: post →
        (∀ x ∈ post, x.Name ≠ ev.Name) → mapIndex Event.zero m.Events ev.Name = ev) ∧
      (∀ t, (∀ ev ∈ events.Events, ev.Name ≠ t) →
        mapIndex Event.zero m.Events t = Event.zero) := by
  obtain ⟨ht, _, he⟩ := builtMachine_tables rules states events m hb
  refine ⟨m.FSM.AvailableTransitions, ?_, ?_, AvailableTransitions_eq m, ?_, ?_⟩
  · apply nodup_FSM_AvailableTransitions
    rw [ht, NewFSM_transitions]
    exact nodup_mapKeys_foldl _ _ _ [] List.nodup_nil
  · intro t
    rw [mem_FSM_AvailableTransitions, Option.isSome_iff_exists]
  · intro pre ev post hsplit hpost
    rw [he, hsplit, mapIndex, table_lookup_last Event.Name pre post ev hpost]
    rfl
  · intro t hno
    rw [he, mapIndex, table_lookup_undeclared Event.Name events.Events t hno]
    rfl

theorem available_records_of_built_machine_witness :
    BuiltMachine greetRules greetStates greetEvents greetMachine ∧
    (AvailableTransitions greetMachine).isSome = true ∧
    mapIndex Event.zero greetMachine.Events "Greet" = ⟨"Greet", "say hello", 1⟩ :=
  have hb : BuiltMachine greetRules greetStates greetEvents greetMachine :=
    ⟨greetMachine, by decide, rfl, rfl, rfl⟩
  match available_records_of_built_machine greetRules greetStates greetEvents greetMachine hb with
  | ⟨_, _, _, heq, hlast, _⟩ =>
    ⟨hb, heq ▸ rfl, hlast [] ⟨"Greet", "say hello", 1⟩ [] rfl (by decide)⟩

/-! ## Building the machine -/

/-- C4, as stated, fails: a document whose only rule names the event Unknown,
which the events section does not declare, is built without error; the
machine returned has a transition for Unknown and no Unknown in its event
table. -/
theorem dangling_reference_counterexample :
    "Unknown" ∉ greetEvents.Events.map Event.Name ∧
    yamlToFSM (.ok danglingRules) (.ok greetStates) (.ok greetEvents)
      = (some danglingMachine, none) ∧
    mapLookup danglingMachine.FSM.transitions ("Initial", "Unknown") = some "Hello" ∧
    mapLookup danglingMachine.Events "Unknown" = none := by
  decide

/-- C4, amended: building checks no reference. For every document whose
three sections decode, `yamlToFSM` returns a machine and no error, also when
a rule names an undeclared event or state. The event table and the state
table of the machine hold exactly the declared names, and the transition
table has an entry for `(s, e)` exactly when a rule named `e` lists `s` as a
source; so a rule's event and states exist in the tables exactly when the
document declares them. -/
theorem build_checks_no_reference (rules : EventDescYaml) (states : StateYaml)
    (events : EventYaml) :
    ∃ m, yamlToFSM (.ok rules) (.ok states) (.ok events) = (some m, none) ∧
      (∀ n, (mapLookup m.Events n).isSome ↔ ∃ ev ∈ events.Events, ev.Name = n) ∧
      (∀ n, (mapLookup m.States n).isSome ↔ ∃ st ∈ states.States, st.Name = n) ∧
      (∀ s e, (mapLookup m.FSM.transitions (s, e)).isSome
        ↔ ∃ r ∈ rules.Fsm, r.Name = e ∧ s ∈ r.SrcState) := by
  refine ⟨_, yamlToFSM_ok rules states events, ?_, ?_, ?_⟩
  · exact fun n => table_isSome_iff Event.Name events.Events n
  · exact fun n => table_isSome_iff State.Name states.States n
  · exact fun s e => built_lookup_isSome_iff rules.Fsm "Initial" s e

/-- C5, as stated, fails: a document that declares the state name Initial
twice and the event name Greet twice is built without error; each table keeps
one entry for the name, the record declared last. -/
theorem duplicate_names_counterexample :
    yamlToFSM (.ok greetRules) (.ok duplicateStates) (.ok duplicateEvents)
      = (some duplicateMachine, none) ∧
    mapLookup duplicateMachine.States "Initial" = some ⟨"Initial", "second"⟩ ∧
    mapLookup duplicateMachine.Events "Greet" = some ⟨"Greet", "second", 2⟩ := by
  decide

/-- C5, amended: building checks no repeated name. For every document whose
three sections decode, `yamlToFSM` returns a machine and no error, also when
a state name or an event name is declared twice. Each table holds every key
once, and under a repeated name it holds the record declared last. -/
theorem build_keeps_last_duplicate (rules : EventDescYaml) (states : StateYaml)
    (events : EventYaml) :
    ∃ m, yamlToFSM (.ok rules) (.ok states) (.ok events) = (some m, none) ∧
      (mapKeys m.States).Nodup ∧ (mapKeys m.Events).Nodup ∧
      (∀ pre st post, states.States = pre ++ st :: post →
        (∀ x ∈ post, x.Name ≠ st.Name) → mapLookup m.States st.Name = some st) ∧
      (∀ pre ev post, events.Events = pre ++ ev :: post →
        (∀ x ∈ post, x.Name ≠ ev.Name) → mapLookup m.Events ev.Name = some ev) := by
  refine ⟨_, yamlToFSM_ok rules states events, ?_, ?_, ?_, ?_⟩
  · exact nodup_mapKeys_foldl _ _ _ [] List.nodup_nil
  · exact nodup_mapKeys_foldl _ _ _ [] List.nodup_nil
  · intro pre st post hsplit hpost
    show mapLookup (states.States.foldl (fun m s => mapStore m s.Name s) []) st.Name = some st
    rw [hsplit]
    exact table_lookup_last State.Name pre post st hpost
  · intro pre ev post hsplit hpost
    show mapLookup (events.Events.foldl (fun m e => mapStore m e.Name e) []) ev.Name = some ev
    rw [hsplit]
    exact table_lookup_last Event.Name pre post ev hpost

/-- C6: for every document whose three sections decode, `yamlToFSM` returns a
machine and no error, and the current state name of the machine is Initial
whatever the document declares. When the states section declares Initial,
`Current()` returns the state-table record under Initial (the one declared
last, should the name repeat); when it declares none, `Current()` returns the
zero State, with empty name and empty message. -/
theorem build_starts_in_Initial (rules : EventDescYaml) (states : StateYaml)
    (events : EventYaml) :
    ∃ m, yamlToFSM (.ok rules) (.ok states) (.ok events) = (some m, none) ∧
      m.FSM.Current = "Initial" ∧
      (∀ pre st post, states.States = pre ++ st :: post → st.Name = "Initial" →
        (∀ x ∈ post, x.Name ≠ "Initial") →
        mapLookup m.States "Initial" = some st ∧ Current m = st) ∧
      ((∀ st ∈ states.States, st.Name ≠ "Initial") →
        Current m = State.zero ∧ Current m = ⟨"", ""⟩) := by
  refine ⟨_, yamlToFSM_ok rules states events, rfl, ?_, ?_⟩
  · intro pre st post hsplit hname hpost
    have hl : mapLookup (states.States.foldl (fun m s => mapStore m s.Name s) []) "Initial"
        = some st := by
      rw [hsplit, ← hname]
      exact table_lookup_last State.Name pre post st (by rw [hname]; exact hpost)
    refine ⟨hl, ?_⟩
    show mapIndex State.zero (states.States.foldl (fun m s => mapStore m s.Name s) []) "Initial"
      = st
    rw [mapIndex, hl]
    rfl
  · intro hno
    have hl := table_lookup_undeclared State.Name states.States "Initial" hno
    have hc : mapIndex State.zero (states.States.foldl (fun m s => mapStore m s.Name s) [])
        "Initial" = State.zero := by
      rw [mapIndex, hl]
      rfl
    exact ⟨hc, hc⟩

theorem build_starts_in_Initial_witness :
    (yamlToFSM (.ok greetRules) (.ok noInitialStates) (.ok greetEvents)).2 = none ∧
    (yamlToFSM (.ok greetRules) (.ok noInitialStates) (.ok greetEvents)).1.map Current
      = some State.zero :=
  match build_starts_in_Initial greetRules noInitialStates greetEvents with
  | ⟨_, hm, _, _, hzero⟩ => ⟨by rw [hm], by rw [hm]; exact congrArg some (hzero (by decide)).1⟩

/-- C7: with the outcomes of decoding the three sections given, `yamlToFSM`
returns nil together with an error if and only if at least one of the three
decodings fails; when all three succeed it returns a machine and no error;
it never returns both a machine and an error. The error wraps the cause of
the first failing section. -/
theorem build_fails_iff_decoding_fails (decFsm : Except String EventDescYaml)
    (decStates : Except String StateYaml) (decEvents : Except String EventYaml) :
    (((yamlToFSM decFsm decStates decEvents).1 = none ∧
        (yamlToFSM decFsm decStates decEvents).2 ≠ none)
      ↔ ((∃ err, decFsm = .error err) ∨ (∃ err, decStates = .error err) ∨
          (∃ err, decEvents = .error err))) ∧
    ((¬ ((∃ err, decFsm = .error err) ∨ (∃ err, decStates = .error err) ∨
          (∃ err, decEvents = .error err))) →
      (yamlToFSM decFsm decStates decEvents).1 ≠ none ∧
        (yamlToFSM decFsm decStates decEvents).2 = none) ∧
    ¬ ((yamlToFSM decFsm decStates decEvents).1 ≠ none ∧
        (yamlToFSM decFsm decStates decEvents).2 ≠ none) ∧
    (∀ err, decFsm = .error err →
      yamlToFSM decFsm decStates decEvents = (none, some ⟨"failed to decode FSM", err⟩)) := by
  cases decFsm <;> cases decStates <;> cases decEvents <;> simp [yamlToFSM, Wrapf]

theorem build_fails_iff_decoding_fails_witness :
    (yamlToFSM (.ok greetRules) (.error "EOF") (.ok greetEvents)).1 = none ∧
    (yamlToFSM (.ok greetRules) (.error "EOF") (.ok greetEvents)).2 ≠ none :=
  (build_fails_iff_decoding_fails (.ok greetRules) (.error "EOF") (.ok greetEvents)).1.mpr
    (Or.inr (Or.inl ⟨"EOF", rfl⟩))

/-- C9: when a rule `r` lists the source state `s` and no later rule declares
the pair `(s, r.Name)`, whatever earlier rules declare for that pair, the
build succeeds without error, the built transition table maps `(s, r.Name)`
to the destination of `r` (last one wins), and firing `r.Name` from `s`
moves the machine to that destination. -/
theorem conflicting_rules_last_wins (pre post : List FsmYaml) (r : FsmYaml)
    (states : StateYaml) (events : EventYaml) (s : String)
    (hs : s ∈ r.SrcState)
    (hpost : ∀ q ∈ post, ¬ (q.Name = r.Name ∧ s ∈ q.SrcState)) :
    ∃ m, yamlToFSM (.ok ⟨pre ++ r :: post⟩) (.ok states) (.ok events) = (some m, none) ∧
      mapLookup m.FSM.transitions (s, r.Name) = some r.DestState ∧
      ∀ m1, BuiltMachine ⟨pre ++ r :: post⟩ states events m1 → m1.FSM.current = s →
        (Fire m1 r.Name).1.FSM.current = r.DestState := by
  refine ⟨_, yamlToFSM_ok ⟨pre ++ r :: post⟩ states events, ?_, ?_⟩
  · exact built_lookup_last pre post r "Initial" s hs hpost
  · intro m1 hb hcur
    have ht := (builtMachine_tables _ states events m1 hb).1
    have hl : mapLookup m1.FSM.transitions (m1.FSM.current, r.Name) = some r.DestState := by
      rw [ht, hcur]
      exact built_lookup_last pre post r "Initial" s hs hpost
    exact (Fire_current m1 r.Name r.DestState hl).1

theorem conflicting_rules_last_wins_witness :
    conflictFirst.DestState ≠ conflictSecond.DestState ∧
    yamlToFSM (.ok ⟨[conflictFirst, conflictSecond]⟩) (.ok greetStates) (.ok greetEvents)
      = (some conflictMachine, none) ∧
    (Fire conflictMachine "Greet").1.FSM.current = "Bye" :=
  match conflicting_rules_last_wins [conflictFirst] [] conflictSecond greetStates greetEvents
      "Initial" (by decide) (by decide) with
  | ⟨_, _, _, hfire⟩ =>
    ⟨by decide, by decide, hfire conflictMachine ⟨conflictMachine, by decide, rfl, rfl, rfl⟩ rfl⟩

/-- C10: for every decoded rule list `eventDescYamlToEventDesc` returns a
non-nil list of the same length whose i-th transition has the name, the
source-state list and the destination of the i-th declared rule, in
declaration order; the empty rule list gives the empty non-nil list. -/
theorem eventDescYamlToEventDesc_preserves_rules (m : EventDescYaml) :
    ∃ out : List EventDesc, eventDescYamlToEventDesc m = some out ∧
      out.length = m.Fsm.length ∧
      (∀ i : Nat, out[i]? = Option.map
        (fun e : FsmYaml => EventDesc.mk e.Name e.SrcState e.DestState) m.Fsm[i]?) ∧
      out = m.Fsm.map (fun e => EventDesc.mk e.Name e.SrcState e.DestState) ∧
      (m.Fsm = [] → eventDescYamlToEventDesc m = some []) := by
  refine ⟨m.Fsm.map toEventDesc, eventDescYamlToEventDesc_eq m, ?_, ?_, rfl, ?_⟩
  · simp
  · intro i
    rw [List.getElem?_map]
    rfl
  · intro h
    rw [eventDescYamlToEventDesc_eq, h]
    rfl

theorem eventDescYamlToEventDesc_preserves_rules_witness :
    eventDescYamlToEventDesc ⟨[]⟩ = some [] :=
  match eventDescYamlToEventDesc_preserves_rules ⟨[]⟩ with
  | ⟨_, _, _, _, _, hnil⟩ => hnil rfl

end Statemachine
